import Mathlib

set_option maxRecDepth 8000

/-!
Shallow embedding of the page-segmentation engine of the Manga-Viewer
repository (file src/Manga.py, class Manga).  Pixels are RGB triples of
integers; an image is a width, a height and a total pixel map.  The Python
code bounds-checks every pixel read on the paths modelled here, so a total
pixel function is an adequate model of PIL's getpixel; PIL's putpixel is
modelled as a functional update.  Loops are modelled by structural recursion
on an explicit fuel argument that is always at least the number of
iterations the Python loop performs, so every definition evaluates by
kernel reduction.  Python's float interpolation in get_slope_color is
modelled by exact integer arithmetic with truncation toward zero, which is
the value int() produces on the exact quotient.
-/

/-- An RGB color triple with integer channel values. -/
abbrev Rgb : Type := ℤ × ℤ × ℤ

/-- A raster image: width, height, and a total pixel map addressed by
(x, y) with y = 0 at the top. -/
structure Img where
  width : ℕ
  height : ℕ
  pix : ℤ → ℤ → Rgb

instance : Inhabited Img := ⟨⟨0, 0, fun _ _ => (0, 0, 0)⟩⟩

namespace Manga

/-- Manga.MIN_IMAGE_HEIGHT: minimum page height before a cut is considered. -/
def MIN_IMAGE_HEIGHT : ℕ := 400

/-- Manga.SLOPE_THRESHOLD: vertical offset of the diagonal probes and height
of the healed band. -/
def SLOPE_THRESHOLD : ℕ := 50

/-- Manga.NUM_EMPTY_LINES: size of the horizontal confirmation window. -/
def NUM_EMPTY_LINES : ℕ := 5

/-- Manga.NUM_EMPTY_SLOPES: size of the slope confirmation windows. -/
def NUM_EMPTY_SLOPES : ℕ := 20

/-- Manga.is_pixel_similar: false if either pixel is None, otherwise true
iff every channel differs by strictly less than the threshold.  The Python
default threshold 5 is passed explicitly at the call sites below. -/
def is_pixel_similar (pixel1 pixel2 : Option Rgb) (threshold : ℤ) : Bool :=
  match pixel1, pixel2 with
  | none, _ => false
  | _, none => false
  | some p1, some p2 =>
      decide (|p1.1 - p2.1| < threshold) && decide (|p1.2.1 - p2.2.1| < threshold) &&
        decide (|p1.2.2 - p2.2.2| < threshold)

/-- Manga.is_pixel_black_or_white: similar to pure black or to pure white
under the threshold (Python default 20, passed explicitly at call sites). -/
def is_pixel_black_or_white (pixel : Option Rgb) (threshold : ℤ) : Bool :=
  is_pixel_similar pixel (some (0, 0, 0)) threshold ||
    is_pixel_similar pixel (some (255, 255, 255)) threshold

/-- Manga.get_line_color: None for an out-of-range row; otherwise compare
every pixel of row y against the pixel at the row's horizontal midpoint and
return that comparison pixel unless more than 5 pixels are dissimilar. -/
def get_line_color (image : Img) (y : ℤ) : Option Rgb :=
  if y < 0 ∨ (image.height : ℤ) ≤ y then none
  else
    let comparison_pixel := image.pix ((image.width / 2 : ℕ) : ℤ) y
    if 5 < (List.range image.width).countP
        (fun x => !(is_pixel_similar (some (image.pix (x : ℤ) y)) (some comparison_pixel) 5)) then
      none
    else some comparison_pixel

/-- Manga.get_slope_color: diagonal variant of get_line_color.  The scan
line runs from row y + y_offset_left at x = 0 to row y + y_offset_right at
x = width; the comparison pixel is taken at the midpoint (Python floor
division).  A lerped position that falls outside the image is skipped.
The Python float lerp followed by int() is modelled as the exact integer
quotient truncated toward zero. -/
def get_slope_color (image : Img) (y y_offset_left y_offset_right : ℤ) : Option Rgb :=
  if y < 0 ∨ (image.height : ℤ) ≤ y then none
  else
    let start := y + y_offset_left
    let stop := y + y_offset_right
    let mid := Int.fdiv (start + stop) 2
    let comparison_pixel := image.pix ((image.width / 2 : ℕ) : ℤ) mid
    if 5 < (List.range image.width).countP (fun x =>
        let y_pos := Int.tdiv (((image.width : ℤ) - (x : ℤ)) * start + (x : ℤ) * stop)
          (image.width : ℤ)
        decide (0 ≤ y_pos) && decide (y_pos < (image.height : ℤ)) &&
          !(is_pixel_similar (some (image.pix (x : ℤ) y_pos)) (some comparison_pixel) 5)) then
      none
    else some comparison_pixel

/-- Manga.are_percent_of_lines_black_or_white: the Python code returns
num_black_or_white / len(lines) >= percent.  Because percent equals
percent.num / percent.den with a positive denominator, that inequality is
the integer comparison below (they are proved equivalent, for the nonempty
windows the code uses, in the percentage theorem); the integer form keeps
the definition kernel-computable, since Mathlib marks rational division
irreducible.  The Python code is never called on an empty list (it would
divide by zero). -/
def are_percent_of_lines_black_or_white (lines : List (Option Rgb)) (percent : ℚ) : Bool :=
  decide (percent.num * (lines.length : ℤ) ≤
    (lines.countP (fun line => is_pixel_black_or_white line 20) : ℤ) * (percent.den : ℤ))

/-- Manga.are_all_lines_black_or_white. -/
def are_all_lines_black_or_white (lines : List (Option Rgb)) : Bool :=
  are_percent_of_lines_black_or_white lines 1

/-- The rolling window of NUM_EMPTY_LINES horizontal line samples that
find_cut (and the trim loops) maintain at position y: the Python list is
initialised to exactly these samples and each pop/append step shifts y by
one, so at every iteration it equals this recomputation. -/
def next_lines (image : Img) (y : ℕ) : List (Option Rgb) :=
  (List.range NUM_EMPTY_LINES).map fun i => get_line_color image ((y + i : ℕ) : ℤ)

/-- The rolling window of NUM_EMPTY_SLOPES left-slope samples at position y
(offsets -SLOPE_THRESHOLD .. +SLOPE_THRESHOLD). -/
def next_slopes_left (image : Img) (y : ℕ) : List (Option Rgb) :=
  (List.range NUM_EMPTY_SLOPES).map fun i =>
    get_slope_color image ((y + i : ℕ) : ℤ) (-(SLOPE_THRESHOLD : ℤ)) (SLOPE_THRESHOLD : ℤ)

/-- The rolling window of NUM_EMPTY_SLOPES right-slope samples at position y
(offsets +SLOPE_THRESHOLD .. -SLOPE_THRESHOLD). -/
def next_slopes_right (image : Img) (y : ℕ) : List (Option Rgb) :=
  (List.range NUM_EMPTY_SLOPES).map fun i =>
    get_slope_color image ((y + i : ℕ) : ℤ) (SLOPE_THRESHOLD : ℤ) (-(SLOPE_THRESHOLD : ℤ))

/-- PIL putpixel, modelled as a functional update of the pixel map. -/
def putpixel (image : Img) (x y : ℤ) (color : Rgb) : Img :=
  { image with pix := fun a b => if a = x ∧ b = y then color else image.pix a b }

/-- The inner healing loop of find_cut: for i in range(SLOPE_THRESHOLD),
write the color at (x, y + i) when y + i < height. -/
def heal_rows (image : Img) (x : ℤ) (y hgt : ℕ) (color : Rgb) : Img :=
  (List.range SLOPE_THRESHOLD).foldl
    (fun im i => if y + i < hgt then putpixel im x ((y + i : ℕ) : ℤ) color else im) image

/-- The outer healing loop of find_cut: run heal_rows for every column x in
the given list (range(width//2, width) for the left-slope branch,
range(width//2) for the right-slope branch). -/
def heal_band (image : Img) (xs : List ℕ) (y hgt : ℕ) (color : Rgb) : Img :=
  xs.foldl (fun im x => heal_rows im (Int.ofNat x) y hgt color) image

/-- The scanning loop of Manga.find_cut.  The fuel argument is an upper
bound on the number of remaining iterations (the wrapper passes
height - y, which is exact, so the fuel never runs out before the Python
loop condition y < height fails).  The Python code asserts that the healing
color is not None; that assert never fires (see the assert-safety theorem),
and the unreachable None branch is modelled as returning unchanged. -/
def find_cut_aux (image : Img) : ℕ → ℕ → ℕ × Img
  | 0, y => (y, image)
  | fuel + 1, y =>
    if y < image.height then
      if are_all_lines_black_or_white (next_lines image y) then (y, image)
      else if are_all_lines_black_or_white (next_slopes_left image y) then
        match (next_slopes_left image y).getD (NUM_EMPTY_LINES / 2) none with
        | some color =>
            (y, heal_band image (List.range' (image.width / 2) (image.width - image.width / 2))
              y image.height color)
        | none => (y, image)
      else if are_all_lines_black_or_white (next_slopes_right image y) then
        match (next_slopes_right image y).getD (NUM_EMPTY_LINES / 2) none with
        | some color => (y, heal_band image (List.range (image.width / 2)) y image.height color)
        | none => (y, image)
      else find_cut_aux image fuel (y + 1)
    else (y, image)

/-- Manga.find_cut: clamp the start of the scan to
min(y + MIN_IMAGE_HEIGHT, height) and run the scanning loop.  Returns the
cut position together with the (possibly healed) image. -/
def find_cut (image : Img) (y : ℕ) : ℕ × Img :=
  let y0 := min (y + MIN_IMAGE_HEIGHT) image.height
  find_cut_aux image (image.height - y0) y0

/-- PIL Image.crop with box (left, upper, right, lower): a
(right-left) x (lower-upper) image whose pixel (x, y) is the source pixel
(x + left, y + upper).  All crop boxes used by the code lie inside the
source image. -/
def crop (image : Img) (left upper right lower : ℕ) : Img :=
  { width := right - left, height := lower - upper,
    pix := fun x y => image.pix (x + (left : ℤ)) (y + (upper : ℤ)) }

/-- The loop of Manga.remove_leading_white_space, returning the number of
leading rows to remove.  Its rolling window at count k holds the line
samples of rows k .. k+4, i.e. next_lines at k.  Fuel as in find_cut_aux. -/
def lead_aux (page : Img) : ℕ → ℕ → ℕ
  | 0, k => k
  | fuel + 1, k =>
    if k < page.height then
      if !(are_percent_of_lines_black_or_white (next_lines page k) (mkRat 1 2)) then k
      else lead_aux page fuel (k + 1)
    else k

/-- Manga.remove_leading_white_space. -/
def remove_leading_white_space (page : Img) : Img :=
  crop page 0 (lead_aux page page.height 0) page.width page.height

/-- The rolling window of the trailing-trim loop at count k: the line
samples of rows height-k-1, height-k-2, ..., height-k-5. -/
def trail_window (page : Img) (k : ℕ) : List (Option Rgb) :=
  (List.range NUM_EMPTY_LINES).map fun i =>
    get_line_color page ((page.height : ℤ) - (k : ℤ) - (i : ℤ) - 1)

/-- The loop of Manga.remove_trailing_white_space, returning the number of
trailing rows to remove. -/
def trail_aux (page : Img) : ℕ → ℕ → ℕ
  | 0, k => k
  | fuel + 1, k =>
    if k < page.height then
      if !(are_percent_of_lines_black_or_white (trail_window page k) (mkRat 1 2)) then k
      else trail_aux page fuel (k + 1)
    else k

/-- Manga.remove_trailing_white_space. -/
def remove_trailing_white_space (page : Img) : Img :=
  crop page 0 0 page.width (page.height - trail_aux page page.height 0)

/-- The loop of Manga.split_image_into_pages, recording each kept page
together with the top boundary of the slab it was cut from.  The image is
threaded through because find_cut may heal (mutate) it.  The cursor
strictly increases by at least one per iteration and the height never
changes, so fuel = height is enough. -/
def split_aux (image : Img) : ℕ → ℕ → List (ℕ × Img)
  | 0, _ => []
  | fuel + 1, y =>
    if y < image.height then
      if (remove_trailing_white_space (remove_leading_white_space
          (crop (find_cut image y).2 0 y (find_cut image y).2.width
            (find_cut image y).1))).height < 10 then
        split_aux (find_cut image y).2 fuel (find_cut image y).1
      else
        (y, remove_trailing_white_space (remove_leading_white_space
          (crop (find_cut image y).2 0 y (find_cut image y).2.width
            (find_cut image y).1)))
          :: split_aux (find_cut image y).2 fuel (find_cut image y).1
    else []

/-- Manga.split_image_into_pages. -/
def split_image_into_pages (image : Img) : List Img :=
  (split_aux image image.height 0).map Prod.snd

/-- The slab top boundaries of the pages kept by split_image_into_pages,
in output order. -/
def page_tops (image : Img) : List ℕ :=
  (split_aux image image.height 0).map Prod.fst

/-- The successive cut boundaries that split_image_into_pages's loop
produces (the values of the cursor after each find_cut call), threading the
image exactly as split_aux does. -/
def cuts_aux (image : Img) : ℕ → ℕ → List ℕ
  | 0, _ => []
  | fuel + 1, y =>
    if y < image.height then
      (find_cut image y).1 :: cuts_aux (find_cut image y).2 fuel (find_cut image y).1
    else []

/-- The full boundary sequence of split_image_into_pages: the initial
cursor 0 followed by every cut position. -/
def cuts (image : Img) : List ℕ := 0 :: cuts_aux image image.height 0

/-- A position qualifies for a cut when one of find_cut's three window
tests succeeds there: the horizontal window, the left-slope window, or the
right-slope window. -/
def cut_condition (image : Img) (y : ℕ) : Bool :=
  are_all_lines_black_or_white (next_lines image y) ||
    are_all_lines_black_or_white (next_slopes_left image y) ||
    are_all_lines_black_or_white (next_slopes_right image y)

/-- Membership in the rectangular band that slope healing overwrites:
columns xlo <= a < xhi, rows yc <= b < yc + SLOPE_THRESHOLD clipped to the
image height. -/
def in_heal_band (xlo xhi yc hgt : ℕ) (a b : ℤ) : Prop :=
  (xlo : ℤ) ≤ a ∧ a < (xhi : ℤ) ∧ (yc : ℤ) ≤ b ∧
    b < (yc : ℤ) + (SLOPE_THRESHOLD : ℤ) ∧ b < (hgt : ℤ)

/-- Concrete image for the scan-range witness: uniformly gray, so no row or
slope ever classifies black-or-white. -/
def gray_image_a : Img := ⟨1, 401, fun _ _ => (100, 100, 100)⟩

/-- Concrete image for the boundary-structure witness. -/
def gray_image_b : Img := ⟨1, 401, fun _ _ => (100, 100, 100)⟩

/-- Concrete image for the minimum-page-height witness. -/
def gray_image_c : Img := ⟨1, 401, fun _ _ => (100, 100, 100)⟩

/-- Concrete all-white page for the trim counterexample and witness. -/
def white_page : Img := ⟨1, 20, fun _ _ => (255, 255, 255)⟩

/-- Concrete all-white image for the horizontal-first witness. -/
def white_image_a : Img := ⟨1, 10, fun _ _ => (255, 255, 255)⟩

/-- Concrete all-white image for the frame-effect witness. -/
def white_image_b : Img := ⟨1, 500, fun _ _ => (255, 255, 255)⟩

/-- Concrete all-white image for the assert-safety witness. -/
def white_image_c : Img := ⟨1, 100, fun _ _ => (255, 255, 255)⟩

/-- Concrete all-white image for the progress witness. -/
def white_image_d : Img := ⟨1, 500, fun _ _ => (255, 255, 255)⟩

/-- Concrete nonempty sample list for the percentage-test witness. -/
def sample_lines : List (Option Rgb) := [some (0, 0, 0)]

/-- Concrete all-white page for the percentage/trim witnesses. -/
def white_page_b : Img := ⟨1, 20, fun _ _ => (255, 255, 255)⟩

end Manga

namespace Manga

/-- The black-or-white test rejects the undefined sample. -/
lemma bw_none (t : ℤ) : is_pixel_black_or_white none t = false := rfl

/-- A sample that classifies black-or-white is a defined color. -/
lemma bw_is_some {l : Option Rgb} (h : is_pixel_black_or_white l 20 = true) :
    ∃ c, l = some c := by
  cases l with
  | none => simp [is_pixel_black_or_white, is_pixel_similar] at h
  | some c => exact ⟨c, rfl⟩

/-- The percentage test at 1 holds iff every sample classifies
black-or-white. -/
lemma are_all_iff {lines : List (Option Rgb)} :
    are_all_lines_black_or_white lines = true ↔
      ∀ l ∈ lines, is_pixel_black_or_white l 20 = true := by
  unfold are_all_lines_black_or_white are_percent_of_lines_black_or_white
  rw [decide_eq_true_iff]
  rw [show (1 : ℚ).num = 1 from rfl, show (((1 : ℚ).den : ℕ) : ℤ) = 1 from rfl,
    one_mul, mul_one]
  constructor
  · intro h
    have hle := List.countP_le_length (fun line => is_pixel_black_or_white line 20)
      (l := lines)
    have hge : lines.length ≤ lines.countP (fun line => is_pixel_black_or_white line 20) := by
      exact_mod_cast h
    exact List.countP_eq_length.mp (le_antisymm hle hge)
  · intro h
    have := List.countP_eq_length.mpr h
    rw [this]

/-- The percentage test agrees with the fraction comparison the Python
code writes: percent <= count / length, for a nonempty sample list. -/
lemma are_percent_div {lines : List (Option Rgb)} {percent : ℚ} (hne : lines ≠ []) :
    are_percent_of_lines_black_or_white lines percent = true ↔
      percent ≤ (lines.countP (fun line => is_pixel_black_or_white line 20) : ℚ) /
        (lines.length : ℚ) := by
  have hl : (0 : ℚ) < (lines.length : ℚ) := by
    exact_mod_cast List.length_pos.mpr hne
  have hden : (0 : ℚ) < ((percent.den : ℕ) : ℚ) := by
    exact_mod_cast percent.den_pos
  unfold are_percent_of_lines_black_or_white
  rw [decide_eq_true_iff, le_div_iff₀ hl]
  conv_rhs => rw [← Rat.num_div_den percent]
  rw [div_mul_eq_mul_div, div_le_iff₀ hden]
  constructor
  · intro h
    exact_mod_cast h
  · intro h
    exact_mod_cast h

/-- Counting the positions i < n with k + i < h. -/
lemma countP_range_min (n k h : ℕ) :
    (List.range n).countP (fun i => decide (k + i < h)) = min n (h - k) := by
  induction n with
  | zero => simp
  | succ n ih =>
    rw [List.range_succ, List.countP_append, ih]
    by_cases hn : k + n < h
    · simp [List.countP_cons, hn]
      omega
    · simp [List.countP_cons, hn]
      omega

/-- An out-of-range row has no line color. -/
lemma get_line_color_oob {image : Img} {y : ℤ} (h : (image.height : ℤ) ≤ y) :
    get_line_color image y = none := by
  unfold get_line_color
  rw [if_pos (Or.inr h)]

/-- putpixel does not change the image dimensions. -/
lemma putpixel_width (image : Img) (x y : ℤ) (c : Rgb) :
    (putpixel image x y c).width = image.width := rfl

/-- putpixel does not change the image dimensions. -/
lemma putpixel_height (image : Img) (x y : ℤ) (c : Rgb) :
    (putpixel image x y c).height = image.height := rfl

/-- heal_rows does not change the image dimensions. -/
lemma heal_rows_width (image : Img) (x : ℤ) (y hgt : ℕ) (c : Rgb) :
    (heal_rows image x y hgt c).width = image.width := by
  unfold heal_rows
  generalize List.range SLOPE_THRESHOLD = l
  induction l generalizing image with
  | nil => rfl
  | cons i t ih =>
    rw [List.foldl_cons]
    refine (ih _).trans ?_
    by_cases hy : y + i < hgt
    · simp [hy, putpixel]
    · simp [hy]

/-- heal_rows does not change the image dimensions. -/
lemma heal_rows_height (image : Img) (x : ℤ) (y hgt : ℕ) (c : Rgb) :
    (heal_rows image x y hgt c).height = image.height := by
  unfold heal_rows
  generalize List.range SLOPE_THRESHOLD = l
  induction l generalizing image with
  | nil => rfl
  | cons i t ih =>
    rw [List.foldl_cons]
    refine (ih _).trans ?_
    by_cases hy : y + i < hgt
    · simp [hy, putpixel]
    · simp [hy]

/-- heal_band does not change the image dimensions. -/
lemma heal_band_width (image : Img) (xs : List ℕ) (y hgt : ℕ) (c : Rgb) :
    (heal_band image xs y hgt c).width = image.width := by
  unfold heal_band
  induction xs generalizing image with
  | nil => rfl
  | cons x t ih =>
    rw [List.foldl_cons]
    exact (ih _).trans (heal_rows_width _ _ _ _ _)

/-- heal_band does not change the image dimensions. -/
lemma heal_band_height (image : Img) (xs : List ℕ) (y hgt : ℕ) (c : Rgb) :
    (heal_band image xs y hgt c).height = image.height := by
  unfold heal_band
  induction xs generalizing image with
  | nil => rfl
  | cons x t ih =>
    rw [List.foldl_cons]
    exact (ih _).trans (heal_rows_height _ _ _ _ _)

/-- The scanning loop never moves the cut position backwards. -/
lemma find_cut_aux_fst_ge (image : Img) :
    ∀ fuel y, y ≤ (find_cut_aux image fuel y).1 := by
  intro fuel
  induction fuel with
  | zero => intro y; simp [find_cut_aux]
  | succ f ih =>
    intro y
    unfold find_cut_aux
    split
    · split
      · simp
      · split
        · split <;> simp
        · split
          · split <;> simp
          · exact le_trans (Nat.le_succ y) (ih (y + 1))
    · simp

/-- The scanning loop never moves the cut position past the image height. -/
lemma find_cut_aux_fst_le (image : Img) :
    ∀ fuel y, y ≤ image.height → (find_cut_aux image fuel y).1 ≤ image.height := by
  intro fuel
  induction fuel with
  | zero => intro y hy; simpa [find_cut_aux] using hy
  | succ f ih =>
    intro y hy
    unfold find_cut_aux
    split
    · rename_i hlt
      split
      · simpa using hy
      · split
        · split <;> simpa using hy
        · split
          · split <;> simpa using hy
          · exact ih (y + 1) hlt
    · simpa using hy

/-- The scanning loop does not change the image width. -/
lemma find_cut_aux_width (image : Img) :
    ∀ fuel y, (find_cut_aux image fuel y).2.width = image.width := by
  intro fuel
  induction fuel with
  | zero => intro y; simp [find_cut_aux]
  | succ f ih =>
    intro y
    unfold find_cut_aux
    split
    · split
      · simp
      · split
        · split
          · simpa using heal_band_width _ _ _ _ _
          · simp
        · split
          · split
            · simpa using heal_band_width _ _ _ _ _
            · simp
          · exact ih (y + 1)
    · simp

/-- The scanning loop does not change the image height. -/
lemma find_cut_aux_height (image : Img) :
    ∀ fuel y, (find_cut_aux image fuel y).2.height = image.height := by
  intro fuel
  induction fuel with
  | zero => intro y; simp [find_cut_aux]
  | succ f ih =>
    intro y
    unfold find_cut_aux
    split
    · split
      · simp
      · split
        · split
          · simpa using heal_band_height _ _ _ _ _
          · simp
        · split
          · split
            · simpa using heal_band_height _ _ _ _ _
            · simp
          · exact ih (y + 1)
    · simp

/-- If no scanned position from y on qualifies for a cut, the loop runs to
the bottom of the image and returns the height. -/
lemma find_cut_aux_nocond (image : Img) :
    ∀ fuel y, y ≤ image.height → image.height - y ≤ fuel →
      (∀ z, z < image.height → y ≤ z → cut_condition image z = false) →
      (find_cut_aux image fuel y).1 = image.height := by
  intro fuel
  induction fuel with
  | zero =>
    intro y hy hf _
    have : y = image.height := by omega
    simp [find_cut_aux, this]
  | succ f ih =>
    intro y hy hf hq
    unfold find_cut_aux
    split
    · rename_i hlt
      have h3 := hq y hlt le_rfl
      simp only [cut_condition, Bool.or_eq_false_iff] at h3
      obtain ⟨⟨hA, hB⟩, hC⟩ := h3
      rw [if_neg (by simp [hA]), if_neg (by simp [hB]), if_neg (by simp [hC])]
      exact ih (y + 1) hlt (by omega) (fun z hz hyz => hq z hz (by omega))
    · omega

/-- find_cut starts its scan at min(y + MIN_IMAGE_HEIGHT, height) and only
moves down from there. -/
lemma find_cut_fst_ge (image : Img) (y : ℕ) :
    min (y + MIN_IMAGE_HEIGHT) image.height ≤ (find_cut image y).1 :=
  find_cut_aux_fst_ge image _ _

/-- find_cut never returns a position past the image height. -/
lemma find_cut_fst_le (image : Img) (y : ℕ) :
    (find_cut image y).1 ≤ image.height :=
  find_cut_aux_fst_le image _ _ (min_le_right _ _)

/-- find_cut strictly advances the cursor while it is inside the image. -/
lemma find_cut_lt (image : Img) (y : ℕ) (hy : y < image.height) :
    y < (find_cut image y).1 := by
  have h1 : y < min (y + MIN_IMAGE_HEIGHT) image.height := by
    have : 0 < MIN_IMAGE_HEIGHT := by norm_num [MIN_IMAGE_HEIGHT]
    omega
  exact lt_of_lt_of_le h1 (find_cut_fst_ge image y)

/-- find_cut does not change the image width. -/
lemma find_cut_width (image : Img) (y : ℕ) :
    (find_cut image y).2.width = image.width :=
  find_cut_aux_width image _ _

/-- find_cut does not change the image height. -/
lemma find_cut_height (image : Img) (y : ℕ) :
    (find_cut image y).2.height = image.height :=
  find_cut_aux_height image _ _

/-- If no position of the scan range qualifies, find_cut returns the
height. -/
lemma find_cut_nocond (image : Img) (y : ℕ)
    (hq : ∀ z, z < image.height → min (y + MIN_IMAGE_HEIGHT) image.height ≤ z →
      cut_condition image z = false) :
    (find_cut image y).1 = image.height :=
  find_cut_aux_nocond image _ _ (min_le_right _ _) le_rfl hq

/-- A pixel inside the rows written by the first n steps of the healing
column loop receives the healing color. -/
lemma heal_rows_go_in (x : ℤ) (y hgt : ℕ) (c : Rgb) :
    ∀ (n : ℕ) (im : Img) (a b : ℤ), a = x →
      (∃ i : ℕ, i < n ∧ b = ((y + i : ℕ) : ℤ) ∧ y + i < hgt) →
      ((List.range n).foldl
        (fun im2 i => if y + i < hgt then putpixel im2 x ((y + i : ℕ) : ℤ) c else im2)
        im).pix a b = c := by
  intro n
  induction n with
  | zero =>
    intro im a b _ hex
    obtain ⟨i, hi, _, _⟩ := hex
    omega
  | succ n ih =>
    intro im a b ha hex
    rw [List.range_succ, List.foldl_append, List.foldl_cons, List.foldl_nil]
    obtain ⟨i, hi, hb, hih⟩ := hex
    by_cases hlast : i = n
    · subst hlast
      rw [if_pos hih]
      simp [putpixel, ha, hb]
    · have hin : i < n := by omega
      have hinner := ih im a b ha ⟨i, hin, hb, hih⟩
      by_cases hn : y + n < hgt
      · rw [if_pos hn]
        by_cases hcoord : a = x ∧ b = ((y + n : ℕ) : ℤ)
        · simp [putpixel, hcoord]
        · simp only [putpixel]
          rw [if_neg hcoord]
          exact hinner
      · rw [if_neg hn]
        exact hinner

/-- A pixel outside the rows written by the first n steps of the healing
column loop is unchanged. -/
lemma heal_rows_go_out (x : ℤ) (y hgt : ℕ) (c : Rgb) :
    ∀ (n : ℕ) (im : Img) (a b : ℤ),
      (¬ ∃ i : ℕ, i < n ∧ a = x ∧ b = ((y + i : ℕ) : ℤ) ∧ y + i < hgt) →
      ((List.range n).foldl
        (fun im2 i => if y + i < hgt then putpixel im2 x ((y + i : ℕ) : ℤ) c else im2)
        im).pix a b = im.pix a b := by
  intro n
  induction n with
  | zero => intro im a b _; rfl
  | succ n ih =>
    intro im a b hex
    rw [List.range_succ, List.foldl_append, List.foldl_cons, List.foldl_nil]
    have hex' : ¬ ∃ i : ℕ, i < n ∧ a = x ∧ b = ((y + i : ℕ) : ℤ) ∧ y + i < hgt := by
      intro ⟨i, hi, h2, h3, h4⟩
      exact hex ⟨i, by omega, h2, h3, h4⟩
    by_cases hn : y + n < hgt
    · rw [if_pos hn]
      simp only [putpixel]
      rw [if_neg (fun hcoord => hex ⟨n, by omega, hcoord.1, hcoord.2, hn⟩)]
      exact ih im a b hex'
    · rw [if_neg hn]
      exact ih im a b hex'

/-- A pixel inside the clipped band of one healed column receives the
healing color. -/
lemma heal_rows_pix_in (im : Img) (x : ℤ) (y hgt : ℕ) (c : Rgb) (a b : ℤ)
    (ha : a = x) (h1 : (y : ℤ) ≤ b) (h2 : b < (y : ℤ) + (SLOPE_THRESHOLD : ℤ))
    (h3 : b < (hgt : ℤ)) :
    (heal_rows im x y hgt c).pix a b = c := by
  unfold heal_rows
  refine heal_rows_go_in x y hgt c SLOPE_THRESHOLD im a b ha ⟨(b - (y : ℤ)).toNat, ?_, ?_, ?_⟩
  · omega
  · push_cast
    omega
  · omega

/-- A pixel outside the clipped band of one healed column is unchanged. -/
lemma heal_rows_pix_out (im : Img) (x : ℤ) (y hgt : ℕ) (c : Rgb) (a b : ℤ)
    (h : ¬(a = x ∧ (y : ℤ) ≤ b ∧ b < (y : ℤ) + (SLOPE_THRESHOLD : ℤ) ∧ b < (hgt : ℤ))) :
    (heal_rows im x y hgt c).pix a b = im.pix a b := by
  unfold heal_rows
  refine heal_rows_go_out x y hgt c SLOPE_THRESHOLD im a b ?_
  intro ⟨i, hi, h2, h3, h4⟩
  exact h ⟨h2, by omega, by push_cast at h3 ⊢; omega, by omega⟩

/-- A pixel in none of the healed columns is unchanged by heal_band. -/
lemma heal_band_out_col (y hgt : ℕ) (c : Rgb) (a b : ℤ) :
    ∀ (xs : List ℕ) (im : Img), (∀ x ∈ xs, a ≠ (x : ℤ)) →
      (heal_band im xs y hgt c).pix a b = im.pix a b := by
  intro xs
  induction xs with
  | nil => intro im _; rfl
  | cons x t ih =>
    intro im hcol
    unfold heal_band
    rw [List.foldl_cons]
    have houter := ih (heal_rows im (Int.ofNat x) y hgt c)
      (fun x' hx' => hcol x' (List.mem_cons_of_mem _ hx'))
    unfold heal_band at houter
    rw [houter]
    exact heal_rows_pix_out _ _ _ _ _ _ _
      (fun hc => hcol x (List.mem_cons_self _ _) hc.1)

/-- A pixel outside the band's row range is unchanged by heal_band. -/
lemma heal_band_out_row (y hgt : ℕ) (c : Rgb) (a b : ℤ)
    (hrow : ¬((y : ℤ) ≤ b ∧ b < (y : ℤ) + (SLOPE_THRESHOLD : ℤ) ∧ b < (hgt : ℤ))) :
    ∀ (xs : List ℕ) (im : Img), (heal_band im xs y hgt c).pix a b = im.pix a b := by
  intro xs
  induction xs with
  | nil => intro im; rfl
  | cons x t ih =>
    intro im
    unfold heal_band
    rw [List.foldl_cons]
    have houter := ih (heal_rows im (Int.ofNat x) y hgt c)
    unfold heal_band at houter
    rw [houter]
    exact heal_rows_pix_out _ _ _ _ _ _ _ (fun hc => hrow hc.2)

/-- A pixel in a healed column and inside the band's row range receives the
healing color. -/
lemma heal_band_in (y hgt : ℕ) (c : Rgb) (a b : ℤ)
    (h1 : (y : ℤ) ≤ b) (h2 : b < (y : ℤ) + (SLOPE_THRESHOLD : ℤ)) (h3 : b < (hgt : ℤ)) :
    ∀ (xs : List ℕ) (im : Img), (∃ x ∈ xs, a = (x : ℤ)) →
      (heal_band im xs y hgt c).pix a b = c := by
  intro xs
  induction xs with
  | nil =>
    intro im hex
    simp at hex
  | cons x t ih =>
    intro im hex
    by_cases hrest : ∃ x' ∈ t, a = (x' : ℤ)
    · unfold heal_band
      rw [List.foldl_cons]
      exact ih _ hrest
    · have hax : a = (x : ℤ) := by
        obtain ⟨x', hx', ha⟩ := hex
        rcases List.mem_cons.mp hx' with h | h
        · rw [ha, h]
        · exact absurd ⟨x', h, ha⟩ hrest
      unfold heal_band
      rw [List.foldl_cons]
      have houter := heal_band_out_col y hgt c a b t
        (heal_rows im (Int.ofNat x) y hgt c)
        (fun x' hx' ha => hrest ⟨x', hx', ha⟩)
      unfold heal_band at houter
      rw [houter]
      exact heal_rows_pix_in _ _ _ _ _ _ _ hax h1 h2 h3

/-- Frame property of the scanning loop: the returned image is either the
input image unchanged (horizontal cut, unreachable assert arm, or no cut
found), or the input image with exactly one half-width band of
SLOPE_THRESHOLD rows starting at the returned cut position overwritten with
one color — the right half for a left-slope heal, the left half for a
right-slope heal. -/
lemma find_cut_aux_frame (image : Img) :
    ∀ fuel y yc img2, find_cut_aux image fuel y = (yc, img2) →
      img2 = image ∨
      (∃ c : Rgb,
        (∀ a b : ℤ, in_heal_band (image.width / 2) image.width yc image.height a b →
          img2.pix a b = c) ∧
        (∀ a b : ℤ, ¬ in_heal_band (image.width / 2) image.width yc image.height a b →
          img2.pix a b = image.pix a b)) ∨
      (∃ c : Rgb,
        (∀ a b : ℤ, in_heal_band 0 (image.width / 2) yc image.height a b →
          img2.pix a b = c) ∧
        (∀ a b : ℤ, ¬ in_heal_band 0 (image.width / 2) yc image.height a b →
          img2.pix a b = image.pix a b)) := by
  intro fuel
  induction fuel with
  | zero =>
    intro y yc img2 heq
    unfold find_cut_aux at heq
    injection heq with h1 h2
    exact Or.inl h2.symm
  | succ f ih =>
    intro y yc img2 heq
    unfold find_cut_aux at heq
    split at heq
    · split at heq
      · injection heq with h1 h2
        exact Or.inl h2.symm
      · split at heq
        · split at heq
          · rename_i color hmatch
            injection heq with h1 h2
            subst h1
            refine Or.inr (Or.inl ⟨color, ?_, ?_⟩)
            · intro a b hband
              unfold in_heal_band at hband
              obtain ⟨hx1, hx2, hy1, hy2, hy3⟩ := hband
              rw [← h2]
              refine heal_band_in _ _ _ _ _ hy1 hy2 hy3 _ _ ⟨a.toNat, ?_, ?_⟩
              · exact List.mem_range'_1.mpr ⟨by omega, by omega⟩
              · omega
            · intro a b hnband
              unfold in_heal_band at hnband
              rw [← h2]
              by_cases hrow : ((y : ℤ) ≤ b ∧ b < (y : ℤ) + (SLOPE_THRESHOLD : ℤ) ∧
                  b < (image.height : ℤ))
              · refine heal_band_out_col _ _ _ _ _ _ _ ?_
                intro x hx hax
                have hxm := List.mem_range'_1.mp hx
                exact hnband ⟨by omega, by omega, hrow.1, hrow.2.1, hrow.2.2⟩
              · exact heal_band_out_row _ _ _ _ _ hrow _ _
          · injection heq with h1 h2
            exact Or.inl h2.symm
        · split at heq
          · split at heq
            · rename_i color hmatch
              injection heq with h1 h2
              subst h1
              refine Or.inr (Or.inr ⟨color, ?_, ?_⟩)
              · intro a b hband
                unfold in_heal_band at hband
                obtain ⟨hx1, hx2, hy1, hy2, hy3⟩ := hband
                rw [← h2]
                refine heal_band_in _ _ _ _ _ hy1 hy2 hy3 _ _ ⟨a.toNat, ?_, ?_⟩
                · exact List.mem_range.mpr (by omega)
                · omega
              · intro a b hnband
                unfold in_heal_band at hnband
                rw [← h2]
                by_cases hrow : ((y : ℤ) ≤ b ∧ b < (y : ℤ) + (SLOPE_THRESHOLD : ℤ) ∧
                    b < (image.height : ℤ))
                · refine heal_band_out_col _ _ _ _ _ _ _ ?_
                  intro x hx hax
                  have hxm := List.mem_range.mp hx
                  exact hnband ⟨by omega, by omega, hrow.1, hrow.2.1, hrow.2.2⟩
                · exact heal_band_out_row _ _ _ _ _ hrow _ _
            · injection heq with h1 h2
              exact Or.inl h2.symm
          · exact ih (y + 1) yc img2 heq
    · injection heq with h1 h2
      exact Or.inl h2.symm

/-- Frame property of find_cut, at the returned cut position. -/
lemma find_cut_frame_aux (image : Img) (y : ℕ) :
    (find_cut image y).2 = image ∨
    (∃ c : Rgb,
      (∀ a b : ℤ, in_heal_band (image.width / 2) image.width (find_cut image y).1
        image.height a b → (find_cut image y).2.pix a b = c) ∧
      (∀ a b : ℤ, ¬ in_heal_band (image.width / 2) image.width (find_cut image y).1
        image.height a b → (find_cut image y).2.pix a b = image.pix a b)) ∨
    (∃ c : Rgb,
      (∀ a b : ℤ, in_heal_band 0 (image.width / 2) (find_cut image y).1
        image.height a b → (find_cut image y).2.pix a b = c) ∧
      (∀ a b : ℤ, ¬ in_heal_band 0 (image.width / 2) (find_cut image y).1
        image.height a b → (find_cut image y).2.pix a b = image.pix a b)) :=
  find_cut_aux_frame image _ _ (find_cut image y).1 (find_cut image y).2 rfl

/-- Under the all-rows-black-or-white hypothesis, the black-or-white count
of the window at position k is the number of its in-bounds rows. -/
lemma next_lines_count (page : Img) (k : ℕ)
    (hbw : ∀ r : ℕ, r < page.height →
      is_pixel_black_or_white (get_line_color page (r : ℤ)) 20 = true) :
    (next_lines page k).countP (fun line => is_pixel_black_or_white line 20) =
      min NUM_EMPTY_LINES (page.height - k) := by
  unfold next_lines
  rw [List.countP_map]
  rw [List.countP_congr (q := fun i => decide (k + i < page.height)) ?_]
  · exact countP_range_min NUM_EMPTY_LINES k page.height
  · intro i _
    by_cases h : k + i < page.height
    · simp only [Function.comp_apply, decide_eq_true_eq]
      rw [show ((k + i : ℕ) : ℤ) = ((k + i : ℕ) : ℤ) from rfl]
      constructor
      · intro _; exact h
      · intro _
        exact hbw (k + i) h
    · simp only [Function.comp_apply, decide_eq_true_eq]
      have hoob : get_line_color page ((k + i : ℕ) : ℤ) = none :=
        get_line_color_oob (by exact_mod_cast Nat.le_of_not_lt h)
      rw [hoob, bw_none]
      simp [h]

/-- Under the all-rows-black-or-white hypothesis, the 50 percent window
test continues exactly while at least 3 of the 5 window rows are still in
bounds. -/
lemma trim_cond_iff (page : Img) (k : ℕ)
    (hbw : ∀ r : ℕ, r < page.height →
      is_pixel_black_or_white (get_line_color page (r : ℤ)) 20 = true) :
    are_percent_of_lines_black_or_white (next_lines page k) (mkRat 1 2) = true ↔
      3 ≤ min NUM_EMPTY_LINES (page.height - k) := by
  unfold are_percent_of_lines_black_or_white
  rw [decide_eq_true_iff, next_lines_count page k hbw]
  have hlen : (next_lines page k).length = 5 := by
    unfold next_lines NUM_EMPTY_LINES
    simp
  rw [hlen, show (mkRat 1 2).num = 1 from rfl, show (((mkRat 1 2).den : ℕ) : ℤ) = 2 from rfl]
  omega

/-- Under the all-rows-black-or-white hypothesis, the leading-trim loop
removes all but at most the last 2 rows. -/
lemma lead_aux_ge (page : Img)
    (hbw : ∀ r : ℕ, r < page.height →
      is_pixel_black_or_white (get_line_color page (r : ℤ)) 20 = true) :
    ∀ fuel k, page.height ≤ k + fuel + 2 → page.height ≤ lead_aux page fuel k + 2 := by
  intro fuel
  induction fuel with
  | zero =>
    intro k h
    simpa [lead_aux] using h
  | succ f ih =>
    intro k h
    unfold lead_aux
    split
    · rename_i hk
      split
      · rename_i hcnd
        have hfalse :
            are_percent_of_lines_black_or_white (next_lines page k) (mkRat 1 2) = false := by
          revert hcnd
          cases are_percent_of_lines_black_or_white (next_lines page k) (mkRat 1 2) <;> simp
        have : ¬ (3 ≤ min NUM_EMPTY_LINES (page.height - k)) := by
          rw [← trim_cond_iff page k hbw, hfalse]
          simp
        unfold NUM_EMPTY_LINES at this
        omega
      · exact ih (k + 1) (by omega)
    · rename_i hk
      omega

/-- Height of remove_leading_white_space, by definition of crop. -/
lemma remove_leading_height (page : Img) :
    (remove_leading_white_space page).height = page.height - lead_aux page page.height 0 := rfl

/-- Height of remove_trailing_white_space, by definition of crop. -/
lemma remove_trailing_height (page : Img) :
    (remove_trailing_white_space page).height =
      page.height - trail_aux page page.height 0 := rfl

/-- A page all of whose rows classify black-or-white trims to height at
most 2: the leading trim alone eats everything except at most the last two
rows, because its 5-row window needs 3 in-bounds black-or-white rows to
keep going. -/
lemma all_bw_trim_le (page : Img)
    (hbw : ∀ r : ℕ, r < page.height →
      is_pixel_black_or_white (get_line_color page (r : ℤ)) 20 = true) :
    (remove_trailing_white_space (remove_leading_white_space page)).height ≤ 2 := by
  have h1 : page.height ≤ lead_aux page page.height 0 + 2 :=
    lead_aux_ge page hbw page.height 0 (by omega)
  have h2 : (remove_leading_white_space page).height ≤ 2 := by
    rw [remove_leading_height]
    omega
  calc (remove_trailing_white_space (remove_leading_white_space page)).height
      ≤ (remove_leading_white_space page).height := by
        rw [remove_trailing_height]
        exact Nat.sub_le _ _
    _ ≤ 2 := h2

/-- The cursor value heading each step of the boundary trace is strictly
below every recorded boundary: the trace is strictly increasing. -/
lemma cuts_aux_chain : ∀ (fuel : ℕ) (image : Img) (y : ℕ),
    List.Chain' (· < ·) (y :: cuts_aux image fuel y) := by
  intro fuel
  induction fuel with
  | zero =>
    intro image y
    simp [cuts_aux]
  | succ f ih =>
    intro image y
    unfold cuts_aux
    split
    · rename_i hy
      rw [List.chain'_cons]
      exact ⟨find_cut_lt image y hy, ih (find_cut image y).2 (find_cut image y).1⟩
    · simp

/-- The boundary trace started at a cursor inside the image always ends at
the image height. -/
lemma cuts_aux_last : ∀ (fuel : ℕ) (image : Img) (y : ℕ),
    y ≤ image.height → image.height - y ≤ fuel →
    (y :: cuts_aux image fuel y).getLast? = some image.height := by
  intro fuel
  induction fuel with
  | zero =>
    intro image y hy hf
    have : y = image.height := by omega
    simp [cuts_aux, this]
  | succ f ih =>
    intro image y hy hf
    unfold cuts_aux
    split
    · rename_i hy2
      rw [List.getLast?_cons_cons]
      have h1 : (find_cut image y).1 ≤ (find_cut image y).2.height := by
        rw [find_cut_height]
        exact find_cut_fst_le image y
      have h2 : (find_cut image y).2.height - (find_cut image y).1 ≤ f := by
        rw [find_cut_height]
        have := find_cut_lt image y hy2
        omega
      have := ih (find_cut image y).2 (find_cut image y).1 h1 h2
      rwa [find_cut_height] at this
    · rename_i hy2
      have : y = image.height := by omega
      simp [this]

/-- Any point below the last entry of a strictly increasing trace is
straddled by some adjacent pair of entries. -/
lemma chain_straddle : ∀ (l : List ℕ) (a r L : ℕ),
    List.Chain' (· < ·) (a :: l) → (a :: l).getLast? = some L → a ≤ r → r < L →
    ∃ i x z, (a :: l).get? i = some x ∧ (a :: l).get? (i + 1) = some z ∧ x ≤ r ∧ r < z := by
  intro l
  induction l with
  | nil =>
    intro a r L _ hlast har hrL
    simp only [List.getLast?_singleton, Option.some.injEq] at hlast
    omega
  | cons b t ih =>
    intro a r L hch hlast har hrL
    by_cases hrb : r < b
    · exact ⟨0, a, b, rfl, rfl, har, hrb⟩
    · push_neg at hrb
      have hch' : List.Chain' (· < ·) (b :: t) := hch.tail
      have hlast' : (b :: t).getLast? = some L := by
        rwa [List.getLast?_cons_cons] at hlast
      obtain ⟨i, x, z, h1, h2, h3, h4⟩ := ih b r L hch' hlast' hrb hrL
      exact ⟨i + 1, x, z, by simpa using h1, by simpa using h2, h3, h4⟩

/-- The slab tops recorded by the splitting loop are strictly increasing
and bounded below by the starting cursor. -/
lemma split_aux_tops : ∀ (fuel : ℕ) (image : Img) (y : ℕ),
    List.Chain' (· < ·) ((split_aux image fuel y).map Prod.fst) ∧
      ∀ t ∈ (split_aux image fuel y).map Prod.fst, y ≤ t := by
  intro fuel
  induction fuel with
  | zero =>
    intro image y
    simp [split_aux]
  | succ f ih =>
    intro image y
    unfold split_aux
    split
    · rename_i hy
      have hlt := find_cut_lt image y hy
      obtain ⟨ihc, ihm⟩ := ih (find_cut image y).2 (find_cut image y).1
      split
      · refine ⟨ihc, fun t ht => ?_⟩
        exact le_trans (le_of_lt hlt) (ihm t ht)
      · rw [List.map_cons]
        constructor
        · rw [List.chain'_cons']
          refine ⟨fun z hz => ?_, ihc⟩
          have hzmem : z ∈ (split_aux (find_cut image y).2 f (find_cut image y).1).map Prod.fst := by
            rcases hhd : ((split_aux (find_cut image y).2 f (find_cut image y).1).map Prod.fst) with _ | ⟨w, ws⟩
            · rw [hhd] at hz
              simp at hz
            · rw [hhd] at hz
              simp only [List.head?_cons, Option.mem_def, Option.some.injEq] at hz
              exact List.mem_cons.mpr (Or.inl hz.symm)
          exact lt_of_lt_of_le hlt (ihm z hzmem)
        · intro t ht
          rcases List.mem_cons.mp ht with h | h
          · omega
          · exact le_trans (le_of_lt hlt) (ihm t h)
    · simp

/-- Every page recorded by the splitting loop has height at least 10. -/
lemma split_aux_heights : ∀ (fuel : ℕ) (image : Img) (y : ℕ) (p : ℕ × Img),
    p ∈ split_aux image fuel y → 10 ≤ p.2.height := by
  intro fuel
  induction fuel with
  | zero =>
    intro image y p hp
    simp [split_aux] at hp
  | succ f ih =>
    intro image y p hp
    unfold split_aux at hp
    split at hp
    · split at hp
      · exact ih _ _ p hp
      · rename_i hsmall
        rcases List.mem_cons.mp hp with h | h
        · rw [h]
          exact Nat.le_of_not_lt hsmall
        · exact ih _ _ p h
    · simp at hp

/-- In a unanimous black-or-white window every sample classifies
black-or-white, hence is a defined color. -/
lemma are_all_mem_some {lines : List (Option Rgb)}
    (h : are_all_lines_black_or_white lines = true) :
    ∀ l ∈ lines, ∃ c, l = some c := by
  intro l hl
  exact bw_is_some (are_all_iff.mp h l hl)

/-- The slope windows have NUM_EMPTY_SLOPES entries. -/
lemma next_slopes_left_length (image : Img) (y : ℕ) :
    (next_slopes_left image y).length = NUM_EMPTY_SLOPES := by
  unfold next_slopes_left
  simp

/-- The slope windows have NUM_EMPTY_SLOPES entries. -/
lemma next_slopes_right_length (image : Img) (y : ℕ) :
    (next_slopes_right image y).length = NUM_EMPTY_SLOPES := by
  unfold next_slopes_right
  simp

/-- C1: for every image and starting offset y0 with y0 < height, find_cut
begins its scan at y0 + MIN_IMAGE_HEIGHT
clamped to the height and returns a cut position y with
min(y0 + 400, height) <= y <= height; if no scanned position qualifies
for a cut, it returns exactly the height. -/
theorem C1_find_cut_scan_range (image : Img) (y0 : ℕ) (h0 : y0 < image.height) :
    min (y0 + MIN_IMAGE_HEIGHT) image.height ≤ (find_cut image y0).1 ∧
    (find_cut image y0).1 ≤ image.height ∧
    ((∀ z, z < image.height → min (y0 + MIN_IMAGE_HEIGHT) image.height ≤ z →
        cut_condition image z = false) → (find_cut image y0).1 = image.height) :=
  ⟨find_cut_fst_ge image y0, find_cut_fst_le image y0, find_cut_nocond image y0⟩

/-- Witness for C1 at the concrete gray image: the starting offset 0 is
inside the image, no scanned position qualifies, and find_cut returns the
height. -/
theorem C1_witness :
    0 < gray_image_a.height ∧ (find_cut gray_image_a 0).1 = gray_image_a.height :=
  ⟨by decide, (C1_find_cut_scan_range gray_image_a 0 (by decide)).2.2 (by decide)⟩

/-- C2: the boundary sequence of split_image_into_pages starts at 0, is
strictly increasing, ends exactly at the image height — hence the
uncropped slabs between adjacent boundaries tile the row range of the
image with no gaps and no overlaps (every row is straddled by an adjacent
boundary pair) — and the source top offsets of the output pages are
strictly increasing. -/
theorem C2_split_boundaries (image : Img) :
    (cuts image).head? = some 0 ∧
    (cuts image).getLast? = some image.height ∧
    List.Chain' (· < ·) (cuts image) ∧
    (∀ r, r < image.height →
      ∃ i x z, (cuts image).get? i = some x ∧ (cuts image).get? (i + 1) = some z ∧
        x ≤ r ∧ r < z) ∧
    List.Chain' (· < ·) (page_tops image) := by
  have hchain : List.Chain' (· < ·) (cuts image) := cuts_aux_chain image.height image 0
  have hlast : (cuts image).getLast? = some image.height :=
    cuts_aux_last image.height image 0 (Nat.zero_le _) (by omega)
  refine ⟨rfl, hlast, hchain, ?_, (split_aux_tops image.height image 0).1⟩
  intro r hr
  exact chain_straddle (cuts_aux image image.height 0) 0 r image.height hchain hlast
    (Nat.zero_le _) hr

/-- Witness for C2 at the concrete gray image, straddling row 0. -/
theorem C2_witness :
    (cuts gray_image_b).head? = some 0 ∧
    (∃ i x z, (cuts gray_image_b).get? i = some x ∧
      (cuts gray_image_b).get? (i + 1) = some z ∧ x ≤ 0 ∧ 0 < z) :=
  ⟨(C2_split_boundaries gray_image_b).1,
    (C2_split_boundaries gray_image_b).2.2.2.1 0 (by decide)⟩

/-- C3: every page in the output of split_image_into_pages has height at
least 10; a trimmed page of height below 10 is discarded. -/
theorem C3_min_page_height (image : Img) (p : Img)
    (hp : p ∈ split_image_into_pages image) : 10 ≤ p.height := by
  obtain ⟨q, hq, rfl⟩ := List.mem_map.mp hp
  exact split_aux_heights image.height image 0 q hq

/-- Witness for C3: the concrete gray image splits into one page, whose
height is at least 10. -/
theorem C3_witness : 10 ≤ (split_image_into_pages gray_image_c).headI.height := by
  have hlen : (split_image_into_pages gray_image_c).length = 1 := by decide
  rcases hsplit : split_image_into_pages gray_image_c with _ | ⟨p, rest⟩
  · rw [hsplit] at hlen
    simp at hlen
  · have hmem : p ∈ split_image_into_pages gray_image_c := by
      rw [hsplit]
      exact List.mem_cons_self _ _
    have := C3_min_page_height gray_image_c p hmem
    simpa using this

/-- C4 counterexample: at min_fraction 1.0 the uniformity check accepts one
near-black and one near-white sample even though they are not mutually
similar, so the check does not require mutual similarity as claimed. -/
theorem C4_counterexample :
    are_all_lines_black_or_white
        [some ((0 : ℤ), (0 : ℤ), (0 : ℤ)), some ((255 : ℤ), (255 : ℤ), (255 : ℤ))] = true ∧
    is_pixel_similar (some ((0 : ℤ), (0 : ℤ), (0 : ℤ)))
        (some ((255 : ℤ), (255 : ℤ), (255 : ℤ))) 5 = false := by
  decide

/-- C4 amended: are_percent_of_lines_black_or_white lines percent is true
iff the fraction of samples that individually classify as black-or-white is
at least percent; mutual similarity between the samples is not required. -/
theorem C4_amended {lines : List (Option Rgb)} {percent : ℚ} (hne : lines ≠ []) :
    are_percent_of_lines_black_or_white lines percent = true ↔
      percent ≤ (lines.countP (fun line => is_pixel_black_or_white line 20) : ℚ) /
        (lines.length : ℚ) :=
  are_percent_div hne

/-- Witness for C4 at a concrete singleton sample list. -/
theorem C4_witness :
    sample_lines ≠ [] ∧
    (are_percent_of_lines_black_or_white sample_lines 1 = true ↔
      1 ≤ (sample_lines.countP (fun line => is_pixel_black_or_white line 20) : ℚ) /
        (sample_lines.length : ℚ)) :=
  ⟨by decide, C4_amended (by decide)⟩

/-- C5 counterexample: an all-white 1 x 20 page trims to height 2, not 0:
the 50 percent window test already fails when fewer than 3 of its 5 rows
are in bounds, so the leading trim leaves the last two rows and the
trailing trim removes nothing. -/
theorem C5_counterexample :
    (remove_trailing_white_space (remove_leading_white_space white_page)).height = 2 ∧
    (remove_trailing_white_space (remove_leading_white_space white_page)).height ≠ 0 := by
  decide

/-- C5 amended: a page whose every row classifies black-or-white trims to
height at most 2 (not exactly 0), which is below the minimum page height
10, so split_image_into_pages drops it. -/
theorem C5_amended (page : Img)
    (hbw : ∀ r : ℕ, r < page.height →
      is_pixel_black_or_white (get_line_color page (r : ℤ)) 20 = true) :
    (remove_trailing_white_space (remove_leading_white_space page)).height ≤ 2 ∧
    (remove_trailing_white_space (remove_leading_white_space page)).height < 10 := by
  have h := all_bw_trim_le page hbw
  exact ⟨h, by omega⟩

/-- Witness for C5 at the concrete all-white page. -/
theorem C5_witness :
    (∀ r : ℕ, r < white_page_b.height →
      is_pixel_black_or_white (get_line_color white_page_b (r : ℤ)) 20 = true) ∧
    (remove_trailing_white_space (remove_leading_white_space white_page_b)).height ≤ 2 :=
  ⟨by decide, (C5_amended white_page_b (by decide)).1⟩

/-- C6: at any scanned position, the horizontal five-line window test is
evaluated before either slope test: when it succeeds, the loop cuts at y
and returns the image unchanged, even if a slope window also qualifies at
the same position. -/
theorem C6_horizontal_first (image : Img) (fuel y : ℕ) (hy : y < image.height)
    (hl : are_all_lines_black_or_white (next_lines image y) = true) :
    find_cut_aux image (fuel + 1) y = (y, image) := by
  unfold find_cut_aux
  rw [if_pos hy, if_pos hl]

/-- Witness for C6 at a concrete all-white image and position 1. -/
theorem C6_witness :
    1 < white_image_a.height ∧
    are_all_lines_black_or_white (next_lines white_image_a 1) = true ∧
    find_cut_aux white_image_a 1 1 = (1, white_image_a) :=
  ⟨by decide, by decide, C6_horizontal_first white_image_a 0 1 (by decide) (by decide)⟩

/-- C7: frame effect of find_cut: the dimensions are preserved, and either
every pixel is unchanged (horizontal cut, or no cut found), or exactly the
right-half band (left-slope heal), or exactly the left-half band
(right-slope heal) of SLOPE_THRESHOLD rows starting at the returned cut,
clipped to the image height, is overwritten with one single color. -/
theorem C7_find_cut_frame (image : Img) (y0 : ℕ) :
    (find_cut image y0).2.width = image.width ∧
    (find_cut image y0).2.height = image.height ∧
    ((find_cut image y0).2 = image ∨
     (∃ c : Rgb,
       (∀ a b : ℤ, in_heal_band (image.width / 2) image.width (find_cut image y0).1
         image.height a b → (find_cut image y0).2.pix a b = c) ∧
       (∀ a b : ℤ, ¬ in_heal_band (image.width / 2) image.width (find_cut image y0).1
         image.height a b → (find_cut image y0).2.pix a b = image.pix a b)) ∨
     (∃ c : Rgb,
       (∀ a b : ℤ, in_heal_band 0 (image.width / 2) (find_cut image y0).1
         image.height a b → (find_cut image y0).2.pix a b = c) ∧
       (∀ a b : ℤ, ¬ in_heal_band 0 (image.width / 2) (find_cut image y0).1
         image.height a b → (find_cut image y0).2.pix a b = image.pix a b))) :=
  ⟨find_cut_width image y0, find_cut_height image y0, find_cut_frame_aux image y0⟩

/-- Witness for C7 at a concrete all-white image. -/
theorem C7_witness : (find_cut white_image_b 0).2.width = white_image_b.width :=
  (C7_find_cut_frame white_image_b 0).1

/-- C8: is_pixel_similar is false whenever either argument is the undefined
sentinel, and on two defined colors it is true iff every channel differs by
strictly less than the threshold (the Python default threshold is 5, passed
at every internal call site). -/
theorem C8_similar_spec :
    (∀ (p : Option Rgb) (t : ℤ), is_pixel_similar none p t = false) ∧
    (∀ (p : Option Rgb) (t : ℤ), is_pixel_similar p none t = false) ∧
    (∀ (a b : Rgb) (t : ℤ), is_pixel_similar (some a) (some b) t = true ↔
      (|a.1 - b.1| < t ∧ |a.2.1 - b.2.1| < t ∧ |a.2.2 - b.2.2| < t)) := by
  refine ⟨fun p t => ?_, fun p t => ?_, fun a b t => ?_⟩
  · cases p <;> rfl
  · cases p <;> rfl
  · unfold is_pixel_similar
    simp [and_assoc]

/-- C9: when a slope window test succeeds, every sample of that window is a
defined color (an undefined sample never classifies black-or-white), so the
healing color taken at window index NUM_EMPTY_LINES / 2 = 2 is defined and
the assert in find_cut holds. -/
theorem C9_assert_safe (image : Img) (y : ℕ) :
    (are_all_lines_black_or_white (next_slopes_left image y) = true →
      ∃ c, (next_slopes_left image y).getD (NUM_EMPTY_LINES / 2) none = some c) ∧
    (are_all_lines_black_or_white (next_slopes_right image y) = true →
      ∃ c, (next_slopes_right image y).getD (NUM_EMPTY_LINES / 2) none = some c) := by
  constructor
  · intro h
    have hlen : (next_slopes_left image y).length = NUM_EMPTY_SLOPES :=
      next_slopes_left_length image y
    have hne : next_slopes_left image y ≠ [] := by
      intro hcon
      rw [hcon] at hlen
      simp [NUM_EMPTY_SLOPES] at hlen
    have hidx : NUM_EMPTY_LINES / 2 < (next_slopes_left image y).length := by
      rw [hlen]
      norm_num [NUM_EMPTY_LINES, NUM_EMPTY_SLOPES]
    rw [List.getD_eq_getElem _ _ hidx]
    exact are_all_mem_some h _ (List.getElem_mem hidx)
  · intro h
    have hlen : (next_slopes_right image y).length = NUM_EMPTY_SLOPES :=
      next_slopes_right_length image y
    have hne : next_slopes_right image y ≠ [] := by
      intro hcon
      rw [hcon] at hlen
      simp [NUM_EMPTY_SLOPES] at hlen
    have hidx : NUM_EMPTY_LINES / 2 < (next_slopes_right image y).length := by
      rw [hlen]
      norm_num [NUM_EMPTY_LINES, NUM_EMPTY_SLOPES]
    rw [List.getD_eq_getElem _ _ hidx]
    exact are_all_mem_some h _ (List.getElem_mem hidx)

/-- Witness for C9 at a concrete all-white image, where both slope windows
qualify. -/
theorem C9_witness :
    are_all_lines_black_or_white (next_slopes_left white_image_c 0) = true ∧
    (∃ c, (next_slopes_left white_image_c 0).getD (NUM_EMPTY_LINES / 2) none = some c) ∧
    are_all_lines_black_or_white (next_slopes_right white_image_c 0) = true ∧
    (∃ c, (next_slopes_right white_image_c 0).getD (NUM_EMPTY_LINES / 2) none = some c) :=
  ⟨by decide, (C9_assert_safe white_image_c 0).1 (by decide), by decide,
    (C9_assert_safe white_image_c 0).2 (by decide)⟩

/-- C10: progress: from any cursor strictly inside the image, find_cut
returns a strictly larger position, never past the height, advancing by at
least min(MIN_IMAGE_HEIGHT, height - y); the measure height - cursor over
the possibly-healed returned image strictly decreases, so the splitting
loop terminates. -/
theorem C10_progress (image : Img) (y0 : ℕ) (h0 : y0 < image.height) :
    y0 < (find_cut image y0).1 ∧
    (find_cut image y0).1 ≤ image.height ∧
    min MIN_IMAGE_HEIGHT (image.height - y0) ≤ (find_cut image y0).1 - y0 ∧
    (find_cut image y0).2.height - (find_cut image y0).1 < image.height - y0 := by
  have hge := find_cut_fst_ge image y0
  have hle := find_cut_fst_le image y0
  have hlt := find_cut_lt image y0 h0
  have hh := find_cut_height image y0
  exact ⟨hlt, hle, by omega, by omega⟩

/-- Witness for C10 at a concrete all-white image. -/
theorem C10_witness :
    0 < white_image_d.height ∧ 0 < (find_cut white_image_d 0).1 :=
  ⟨by decide, (C10_progress white_image_d 0 (by decide)).1⟩

end Manga
